import Mathlib

/-!
Verification of the `mana_cost` library (`src/mana_cost/__init__.py`).

The development shallowly embeds the parser and the cost engine:

* the module-level regex `\{(BASE(?:/BASE)*)\}` with `BASE = [RUBGWCPX]|\d+`
  becomes a deterministic character-level matcher (`matchBase`, `matchTailF`,
  `matchGroupAt`) and a scanner (`findAllF` / `findAll`) modelling
  `re.findall`; the regex needs no backtracking, so the greedy matcher is
  exact;
* `ComparableCounter` (a `collections.Counter` subclass) becomes an
  association list with unique keys, `__getitem__` with default 0 becomes
  `ComparableCounter.get`, and `counter[k] += n` becomes
  `ComparableCounter.incr`;
* Python-level exceptions (`reduce` of an empty sequence, `min` / `max` of
  an empty sequence) are modelled by `Option`: `none` is a raised exception;
* `functools.total_ordering` applied to `ManaCost` (which defines `__eq__`,
  `__lt__`, `__le__`) picks `__lt__` as root and fills in
  `__gt__ = not lt and not eq` and `__ge__ = not lt`; `ManaCost.gt` and
  `ManaCost.ge` reproduce those recipes.

Counter equality follows `collections.Counter.__eq__` (missing keys count
as zero on both sides).
-/

/-! ## Parser: the regex `\{((?:[RUBGWCPX]|\d+)(?:/(?:[RUBGWCPX]|\d+))*)\}` -/

/-- The character class `[RUBGWCPX]` of `base_mana_re`, in source order. -/
def baseLetters : List Char := ['R', 'U', 'B', 'G', 'W', 'C', 'P', 'X']

/-- Match the alternation `[RUBGWCPX]|\d+` at the head of the input: a single
letter from the class, or a maximal nonempty run of decimal digits.  Returns
the consumed characters and the remaining input. -/
def matchBase : List Char → Option (List Char × List Char)
  | [] => none
  | c :: cs =>
    if c ∈ baseLetters then some ([c], cs)
    else if c.isDigit then some (c :: cs.takeWhile Char.isDigit, cs.dropWhile Char.isDigit)
    else none

/-- Match the greedy repetition `(?:/BASE)*`: as many `/`-prefixed base
tokens as possible.  Fuel-indexed for structural recursion; every iteration
consumes at least two characters, so `fuel = input.length` is always enough.
Returns the consumed characters and the remaining input. -/
def matchTailF : Nat → List Char → List Char × List Char
  | 0, s => ([], s)
  | fuel + 1, s =>
    match s with
    | '/' :: rest =>
      match matchBase rest with
      | some (b, rest2) =>
        ('/' :: (b ++ (matchTailF fuel rest2).1), (matchTailF fuel rest2).2)
      | none => ([], s)
    | _ => ([], s)

/-- Match the full group pattern `\{(BASE(?:/BASE)*)\}` at the head of the
input.  Returns the captured inner text (grouped alternatives joined by `/`)
and the input after the closing brace. -/
def matchGroupAt : List Char → Option (List Char × List Char)
  | '{' :: rest =>
    match matchBase rest with
    | some (b, rest2) =>
      match (matchTailF rest2.length rest2).2 with
      | '}' :: rest4 => some (b ++ (matchTailF rest2.length rest2).1, rest4)
      | _ => none
    | none => none
  | _ => none

/-- Python `re.findall` over the group pattern: scan left to right, at each position
either take the (unique) match starting there and continue after it, or move
one character forward.  Fuel-indexed; `fuel = input.length` is enough since
each step consumes at least one character. -/
def findAllF : Nat → List Char → List (List Char)
  | 0, _ => []
  | _ + 1, [] => []
  | fuel + 1, c :: rest =>
    match matchGroupAt (c :: rest) with
    | some (cap, rest2) => cap :: findAllF fuel rest2
    | none => findAllF fuel rest

/-- The source's `mana_list_re.findall(mana_cost)`: the captured groups, in order. -/
def findAll (s : List Char) : List (List Char) := findAllF s.length s

/-- Python `str.split('/')`: split on every slash, keeping empty pieces
(`"".split('/') == ['']`, `"a//b".split('/') == ['a','','b']`). -/
def splitSlash : List Char → List (List Char)
  | [] => [[]]
  | c :: rest =>
    if c = '/' then [] :: splitSlash rest
    else
      match splitSlash rest with
      | [] => [[c]]
      | piece :: pieces => (c :: piece) :: pieces

/-- The source's `list(set(mana.split('/')))`: split a captured group on `/` and collapse
duplicate alternatives.  Python's `set` iterates in an unspecified order;
`List.dedup` fixes one deterministic order (the claims never depend on the
order of alternatives inside a group). -/
def tokenize (cap : List Char) : List String :=
  ((splitSlash cap).map fun l => String.mk l).dedup

/-- The parsed form of a mana cost: `self._parsed_mana`, the ordered list of
groups, each group a list of unique alternative tokens. -/
structure ManaCost where
  parsed : List (List String)
deriving DecidableEq

/-- The constructor `ManaCost.__init__`: find all bracketed groups, split each on `/` and
collapse duplicates. -/
def ManaCost.ofChars (s : List Char) : ManaCost :=
  ⟨(findAll s).map tokenize⟩

/-- Constructing `ManaCost(string)` from a Lean string literal. -/
def ManaCost.ofString (s : String) : ManaCost := ManaCost.ofChars s.data

/-! ## Cost engine -/

/-- Python `int(t)` restricted to grammar tokens, and `t.isdigit()`:
`some value` on a nonempty run of decimal digits, `none` (a `ValueError`)
otherwise. -/
def strToNat (t : String) : Option Nat :=
  if t.data ≠ [] ∧ t.data.all Char.isDigit then
    some (t.data.foldl (fun acc c => 10 * acc + (c.toNat - 48)) 0)
  else none

/-- The expression `int(variation) if variation.isdigit() else 1`: the numeric contribution
of one token in `min_mana_cost` / `max_mana_cost`. -/
def token_value (t : String) : Nat :=
  match strToNat t with
  | some n => n
  | none => 1

/-- The property `num_variations`, i.e. `reduce(operator.mul, map(len, self._parsed_mana))`: `none` models the
`TypeError` that `reduce` raises on an empty sequence with no initializer. -/
def ManaCost.num_variations (m : ManaCost) : Option Nat :=
  match m.parsed.map List.length with
  | [] => none
  | x :: xs => some (xs.foldl (· * ·) x)

/-- The expression `min(int(v) if v.isdigit() else 1 for v in mana if v not in ('P','X'))`
for one group: `none` models the `ValueError` that `min` raises when the
filtered sequence is empty. -/
def group_min (g : List String) : Option Nat :=
  match (g.filter fun v => decide (v ≠ "P" ∧ v ≠ "X")).map token_value with
  | [] => none
  | x :: xs => some (xs.foldl Nat.min x)

/-- The `max(...)` analogue of `group_min`. -/
def group_max (g : List String) : Option Nat :=
  match (g.filter fun v => decide (v ≠ "P" ∧ v ≠ "X")).map token_value with
  | [] => none
  | x :: xs => some (xs.foldl Nat.max x)

/-- Map a fallible function over a list, propagating the first failure: the
generator inside `sum(...)` propagates an exception raised by any group. -/
def mapOption (f : α → Option β) : List α → Option (List β)
  | [] => some []
  | a :: l =>
    match f a, mapOption f l with
    | some b, some bs => some (b :: bs)
    | _, _ => none

/-- The property `ManaCost.min_mana_cost`: the sum of the per-group minima; `none` when
some group raises. -/
def ManaCost.min_mana_cost (m : ManaCost) : Option Nat :=
  (mapOption group_min m.parsed).map fun l => l.sum

/-- The property `ManaCost.max_mana_cost`: the sum of the per-group maxima; `none` when
some group raises. -/
def ManaCost.max_mana_cost (m : ManaCost) : Option Nat :=
  (mapOption group_max m.parsed).map fun l => l.sum

/-- The class `ComparableCounter`, a `collections.Counter` subclass, modelled as an association
list from key strings to counts, in insertion order, with unique keys. -/
abbrev ComparableCounter := List (String × Nat)

/-- Lookup `counter[key]` — `Counter.__getitem__`, returning 0 for a missing key. -/
def ComparableCounter.get : ComparableCounter → String → Nat
  | [], _ => 0
  | (k, v) :: rest, key => if k = key then v else ComparableCounter.get rest key

/-- Update `counter[key] += n`: update the entry in place, or append a new entry
(Python dicts keep insertion order). -/
def ComparableCounter.incr : ComparableCounter → String → Nat → ComparableCounter
  | [], key, n => [(key, n)]
  | (k, v) :: rest, key, n =>
    if k = key then (k, v + n) :: rest
    else (k, v) :: ComparableCounter.incr rest key n

/-- The override `ComparableCounter.__lt__`: `all(v < rhs[k] for k, v in self.items())`. -/
def ComparableCounter.lt (a b : ComparableCounter) : Bool :=
  a.all fun p => decide (p.2 < ComparableCounter.get b p.1)

/-- The override `ComparableCounter.__le__`: `all(v <= rhs[k] for k, v in self.items())`. -/
def ComparableCounter.le (a b : ComparableCounter) : Bool :=
  a.all fun p => decide (p.2 ≤ ComparableCounter.get b p.1)

/-- The inherited `Counter.__eq__`: equal counts on every key of either
operand (missing keys count as zero). -/
def ComparableCounter.eq (a b : ComparableCounter) : Bool :=
  (a.all fun p => decide (p.2 = ComparableCounter.get b p.1)) &&
    (b.all fun p => decide (p.2 = ComparableCounter.get a p.1))

/-- The body of the `for mana in mana_combo` loop in `combinations`:
`try: counter['GENERIC'] += int(mana) except ValueError: counter[mana] += 1`. -/
def addMana (c : ComparableCounter) (mana : String) : ComparableCounter :=
  match strToNat mana with
  | some n => ComparableCounter.incr c "GENERIC" n
  | none => ComparableCounter.incr c mana 1

/-- Fold one choice of tokens (one per group) into a counter. -/
def interpret (combo : List String) : ComparableCounter :=
  combo.foldl addMana []

/-- The call `itertools.product(*self._parsed_mana)`: the Cartesian product of the
groups, in product order (first group varies slowest). -/
def cartProd : List (List String) → List (List String)
  | [] => [[]]
  | g :: gs => (g.map fun x => (cartProd gs).map fun combo => x :: combo).flatten

/-- The generator `ManaCost.combinations`: one counter per element of the Cartesian
product of the groups. -/
def ManaCost.combinations (m : ManaCost) : List ComparableCounter :=
  (cartProd m.parsed).map interpret

/-- The method `ManaCost.__eq__`: some interpretation of the left side is
`Counter`-equal to some interpretation of the right side. -/
def ManaCost.eq (x y : ManaCost) : Bool :=
  x.combinations.any fun l => y.combinations.any fun r => ComparableCounter.eq l r

/-- The method `ManaCost.__lt__`: some pair of interpretations is related by the
concrete `ComparableCounter.__lt__`. -/
def ManaCost.lt (x y : ManaCost) : Bool :=
  x.combinations.any fun l => y.combinations.any fun r => ComparableCounter.lt l r

/-- The method `ManaCost.__le__`: some pair of interpretations is related by the
concrete `ComparableCounter.__le__`. -/
def ManaCost.le (x y : ManaCost) : Bool :=
  x.combinations.any fun l => y.combinations.any fun r => ComparableCounter.le l r

/-- The relation `X > Y` as produced by `@total_ordering`: with `__lt__` as the root
operation, `__gt__(self, other) = (not self.__lt__(other)) and self != other`,
and `!=` is the negation of `ManaCost.__eq__`. -/
def ManaCost.gt (x y : ManaCost) : Bool :=
  !(ManaCost.lt x y) && !(ManaCost.eq x y)

/-- The relation `X >= Y` as produced by `@total_ordering`:
`__ge__(self, other) = not self.__lt__(other)`. -/
def ManaCost.ge (x y : ManaCost) : Bool :=
  !(ManaCost.lt x y)

/-! ## Specification-side definitions

These follow the wording of the specification (grammar of a bracketed
group, per-group extrema, per-key contributions) and are compared with the
embedded code in the refinement theorems below. -/

/-- One grammar alternative, per the spec: "each alt one of the uppercase
letters W U B R G C P X or a run of decimal digits". -/
def IsAlt (a : List Char) : Prop :=
  (∃ c, c ∈ baseLetters ∧ a = [c]) ∨ (a ≠ [] ∧ ∀ c ∈ a, c.isDigit = true)

/-- The characters of the trailing alternatives `(/alt)*`, joined. -/
def tailJoin (alts : List (List Char)) : List Char :=
  (alts.map fun a => '/' :: a).flatten

/-- Alternatives joined by `/`, the inner text of one bracketed group. -/
def joinSlash : List (List Char) → List Char
  | [] => []
  | a :: rest => a ++ tailJoin rest

/-- A valid captured group body: one or more grammar alternatives joined by
slashes. -/
def IsCapture (cap : List Char) : Prop :=
  ∃ alts, alts ≠ [] ∧ (∀ a ∈ alts, IsAlt a) ∧ cap = joinSlash alts

/-- A grammar-matching bracketed substring starts at this position. -/
def HasGroupAt (s : List Char) : Prop :=
  ∃ cap rest, IsCapture cap ∧ s = '{' :: (cap ++ '}' :: rest)

/-- The spec's description of the parse: scanning left to right, the
captured bodies are exactly the bracketed substrings matching the grammar
`{ alt (/ alt)* }`, with all non-matching text ignored. -/
inductive GroupsSpec : List Char → List (List Char) → Prop where
  | nil : GroupsSpec [] []
  | group : ∀ cap rest caps, IsCapture cap → GroupsSpec rest caps →
      GroupsSpec ('{' :: (cap ++ '}' :: rest)) (cap :: caps)
  | skip : ∀ c rest caps, ¬ HasGroupAt (c :: rest) → GroupsSpec rest caps →
      GroupsSpec (c :: rest) caps

/-- The keys of a counter appear at most once (true of every counter the
engine builds; Python dict keys are unique by construction). -/
abbrev NodupKeys (c : ComparableCounter) : Prop :=
  (c.map Prod.fst).Nodup

/-- Asserts `n` is the minimum numeric contribution among the group's non-P/X
tokens, per the spec's wording for `min_total`. -/
def IsGroupMin (g : List String) (n : Nat) : Prop :=
  (∃ t, t ∈ g ∧ (t ≠ "P" ∧ t ≠ "X") ∧ token_value t = n) ∧
    ∀ t, t ∈ g → t ≠ "P" → t ≠ "X" → n ≤ token_value t

/-- Asserts `n` is the maximum numeric contribution among the group's non-P/X
tokens, per the spec's wording for `max_total`. -/
def IsGroupMax (g : List String) (n : Nat) : Prop :=
  (∃ t, t ∈ g ∧ (t ≠ "P" ∧ t ≠ "X") ∧ token_value t = n) ∧
    ∀ t, t ∈ g → t ≠ "P" → t ≠ "X" → token_value t ≤ n

/-- The spec's description of how one chosen token contributes to one key of
its interpretation: a numeric token adds its value to `GENERIC`, every other
token adds one to its own key. -/
def specContribution (key : String) (t : String) : Nat :=
  match strToNat t with
  | some n => if key = "GENERIC" then n else 0
  | none => if t = key then 1 else 0

/-! ## Counter lemmas -/

theorem get_eq_zero_of_not_mem_keys (c : ComparableCounter) (k : String)
    (h : k ∉ c.map Prod.fst) : ComparableCounter.get c k = 0 := by
  induction c with
  | nil => rfl
  | cons p rest ih =>
    obtain ⟨a, b⟩ := p
    simp only [List.map_cons, List.mem_cons, not_or] at h
    simp only [ComparableCounter.get, if_neg (Ne.symm h.1), ih h.2]

theorem mem_of_mem_keys (c : ComparableCounter) (k : String)
    (h : k ∈ c.map Prod.fst) : (k, ComparableCounter.get c k) ∈ c := by
  induction c with
  | nil => simp at h
  | cons p rest ih =>
    obtain ⟨a, b⟩ := p
    by_cases hak : a = k
    · subst hak
      simp [ComparableCounter.get]
    · simp only [List.map_cons, List.mem_cons] at h
      rcases h with h | h
      · exact absurd h.symm hak
      · simp only [ComparableCounter.get, if_neg hak, List.mem_cons]
        exact Or.inr (ih h)

theorem get_of_nodupKeys {c : ComparableCounter} {k : String} {v : Nat}
    (hc : NodupKeys c) (h : (k, v) ∈ c) : ComparableCounter.get c k = v := by
  induction c with
  | nil => simp at h
  | cons p rest ih =>
    obtain ⟨a, b⟩ := p
    simp only [NodupKeys, List.map_cons, List.nodup_cons] at hc
    rcases List.mem_cons.1 h with h | h
    · injection h with h1 h2
      subst h1
      subst h2
      simp [ComparableCounter.get]
    · by_cases hak : a = k
      · subst hak
        exact absurd (List.mem_map_of_mem Prod.fst h) hc.1
      · simp only [ComparableCounter.get, if_neg hak]
        exact ih hc.2 h

theorem keys_incr (c : ComparableCounter) (k : String) (n : Nat) :
    (ComparableCounter.incr c k n).map Prod.fst =
      if k ∈ c.map Prod.fst then c.map Prod.fst else c.map Prod.fst ++ [k] := by
  induction c with
  | nil => simp [ComparableCounter.incr]
  | cons p rest ih =>
    obtain ⟨a, b⟩ := p
    by_cases hak : a = k
    · subst hak
      simp [ComparableCounter.incr]
    · simp only [ComparableCounter.incr, if_neg hak, List.map_cons, ih, List.mem_cons]
      by_cases hk : k ∈ rest.map Prod.fst
      · simp [hk, Ne.symm hak]
      · simp [hk, Ne.symm hak]

theorem nodupKeys_incr {c : ComparableCounter} (k : String) (n : Nat)
    (hc : NodupKeys c) : NodupKeys (ComparableCounter.incr c k n) := by
  unfold NodupKeys
  rw [keys_incr]
  by_cases hk : k ∈ c.map Prod.fst
  · simpa [hk] using hc
  · simp only [hk, if_false]
    rw [List.nodup_append]
    exact ⟨hc, List.nodup_singleton k, by simpa using hk⟩

theorem get_incr (c : ComparableCounter) (k key : String) (n : Nat) :
    ComparableCounter.get (ComparableCounter.incr c k n) key =
      ComparableCounter.get c key + (if k = key then n else 0) := by
  induction c with
  | nil =>
    by_cases h : k = key <;> simp [ComparableCounter.incr, ComparableCounter.get, h]
  | cons p rest ih =>
    obtain ⟨a, b⟩ := p
    by_cases hak : a = k
    · subst hak
      by_cases h : a = key
      · subst h
        simp [ComparableCounter.incr, ComparableCounter.get, Nat.add_assoc]
      · simp [ComparableCounter.incr, ComparableCounter.get, h]
    · by_cases h : a = key
      · subst h
        simp [ComparableCounter.incr, if_neg hak, ComparableCounter.get, Ne.symm hak]
      · simp [ComparableCounter.incr, if_neg hak, ComparableCounter.get, if_neg h, ih]

theorem nodupKeys_foldl_addMana (l : List String) :
    ∀ c : ComparableCounter, NodupKeys c → NodupKeys (List.foldl addMana c l) := by
  induction l with
  | nil => exact fun c hc => hc
  | cons t ts ih =>
    intro c hc
    refine ih _ ?_
    unfold addMana
    cases strToNat t <;> exact nodupKeys_incr _ _ hc

theorem nodupKeys_interpret (combo : List String) : NodupKeys (interpret combo) :=
  nodupKeys_foldl_addMana combo [] (by simp [NodupKeys])

theorem get_addMana (c : ComparableCounter) (t : String) (key : String) :
    ComparableCounter.get (addMana c t) key =
      ComparableCounter.get c key + specContribution key t := by
  unfold addMana specContribution
  cases strToNat t with
  | some n =>
    rw [get_incr]
    by_cases hk : key = "GENERIC"
    · subst hk
      simp
    · simp [hk, Ne.symm hk]
  | none => rw [get_incr]

theorem get_foldl_addMana (l : List String) :
    ∀ (c : ComparableCounter) (key : String),
      ComparableCounter.get (List.foldl addMana c l) key =
        ComparableCounter.get c key + (l.map fun t => specContribution key t).sum := by
  induction l with
  | nil => simp
  | cons t ts ih =>
    intro c key
    simp only [List.foldl_cons, List.map_cons, List.sum_cons, ih, get_addMana,
      Nat.add_assoc]

theorem interpret_get (combo : List String) (key : String) :
    ComparableCounter.get (interpret combo) key =
      (combo.map fun t => specContribution key t).sum := by
  unfold interpret
  rw [get_foldl_addMana]
  simp [ComparableCounter.get]

theorem counter_eq_iff {a b : ComparableCounter} (ha : NodupKeys a) (hb : NodupKeys b) :
    ComparableCounter.eq a b = true ↔
      ∀ k, ComparableCounter.get a k = ComparableCounter.get b k := by
  unfold ComparableCounter.eq
  rw [Bool.and_eq_true, List.all_eq_true, List.all_eq_true]
  constructor
  · rintro ⟨h1, h2⟩ k
    by_cases hka : k ∈ a.map Prod.fst
    · have := h1 _ (mem_of_mem_keys a k hka)
      simpa using this
    · rw [get_eq_zero_of_not_mem_keys a k hka]
      by_cases hkb : k ∈ b.map Prod.fst
      · have h0 := h2 _ (mem_of_mem_keys b k hkb)
        simp only [decide_eq_true_eq] at h0
        rw [get_eq_zero_of_not_mem_keys a k hka] at h0
        omega
      · rw [get_eq_zero_of_not_mem_keys b k hkb]
  · intro h
    constructor
    · intro p hp
      have : ComparableCounter.get a p.1 = p.2 := get_of_nodupKeys ha hp
      simp [← this, h p.1]
    · intro p hp
      have : ComparableCounter.get b p.1 = p.2 := get_of_nodupKeys hb hp
      simp [← this, h p.1]

theorem counter_lt_iff {a b : ComparableCounter} (ha : NodupKeys a) :
    ComparableCounter.lt a b = true ↔
      ∀ k ∈ a.map Prod.fst,
        ComparableCounter.get a k < ComparableCounter.get b k := by
  unfold ComparableCounter.lt
  rw [List.all_eq_true]
  constructor
  · intro h k hk
    have := h _ (mem_of_mem_keys a k hk)
    simpa using this
  · intro h p hp
    have hmem := h p.1 (List.mem_map_of_mem Prod.fst hp)
    rw [get_of_nodupKeys ha hp] at hmem
    simpa using hmem

theorem counter_le_iff {a b : ComparableCounter} (ha : NodupKeys a) :
    ComparableCounter.le a b = true ↔
      ∀ k ∈ a.map Prod.fst,
        ComparableCounter.get a k ≤ ComparableCounter.get b k := by
  unfold ComparableCounter.le
  rw [List.all_eq_true]
  constructor
  · intro h k hk
    have := h _ (mem_of_mem_keys a k hk)
    simpa using this
  · intro h p hp
    have hmem := h p.1 (List.mem_map_of_mem Prod.fst hp)
    rw [get_of_nodupKeys ha hp] at hmem
    simpa using hmem

/-! ## Fold lemmas for `min` / `max` / `reduce(mul)` -/

theorem foldl_min_mem : ∀ (xs : List Nat) (x : Nat),
    xs.foldl Nat.min x = x ∨ xs.foldl Nat.min x ∈ xs := by
  intro xs
  induction xs with
  | nil => exact fun x => Or.inl rfl
  | cons y ys ih =>
    intro x
    rcases ih (Nat.min x y) with h | h
    · rw [List.foldl_cons, h, show Nat.min x y = min x y from rfl]
      rcases Nat.le_total x y with hxy | hxy
      · exact Or.inl (by omega)
      · have hy : min x y = y := by omega
        rw [hy]
        exact Or.inr (List.mem_cons_self y ys)
    · exact Or.inr (List.mem_cons_of_mem y h)

theorem foldl_min_le_init : ∀ (xs : List Nat) (x : Nat), xs.foldl Nat.min x ≤ x := by
  intro xs
  induction xs with
  | nil => exact fun x => Nat.le_refl x
  | cons y ys ih =>
    intro x
    exact Nat.le_trans (ih (Nat.min x y)) (Nat.min_le_left x y)

theorem foldl_min_le_mem : ∀ (xs : List Nat) (x y : Nat), y ∈ xs →
    xs.foldl Nat.min x ≤ y := by
  intro xs
  induction xs with
  | nil => intro x y h; simp at h
  | cons z zs ih =>
    intro x y h
    rcases List.mem_cons.1 h with rfl | h
    · exact Nat.le_trans (foldl_min_le_init zs (Nat.min x y)) (Nat.min_le_right x y)
    · exact ih (Nat.min x z) y h

theorem foldl_max_mem : ∀ (xs : List Nat) (x : Nat),
    xs.foldl Nat.max x = x ∨ xs.foldl Nat.max x ∈ xs := by
  intro xs
  induction xs with
  | nil => exact fun x => Or.inl rfl
  | cons y ys ih =>
    intro x
    rcases ih (Nat.max x y) with h | h
    · rw [List.foldl_cons, h, show Nat.max x y = max x y from rfl]
      rcases Nat.le_total x y with hxy | hxy
      · have hy : max x y = y := by omega
        rw [hy]
        exact Or.inr (List.mem_cons_self y ys)
      · exact Or.inl (by omega)
    · exact Or.inr (List.mem_cons_of_mem y h)

theorem foldl_max_init_le : ∀ (xs : List Nat) (x : Nat), x ≤ xs.foldl Nat.max x := by
  intro xs
  induction xs with
  | nil => exact fun x => Nat.le_refl x
  | cons y ys ih =>
    intro x
    exact Nat.le_trans (Nat.le_max_left x y) (ih (Nat.max x y))

theorem foldl_max_mem_le : ∀ (xs : List Nat) (x y : Nat), y ∈ xs →
    y ≤ xs.foldl Nat.max x := by
  intro xs
  induction xs with
  | nil => intro x y h; simp at h
  | cons z zs ih =>
    intro x y h
    rcases List.mem_cons.1 h with rfl | h
    · exact Nat.le_trans (Nat.le_max_right x y) (foldl_max_init_le zs (Nat.max x y))
    · exact ih (Nat.max x z) y h

theorem foldl_mul_eq_prod : ∀ (xs : List Nat) (x : Nat),
    xs.foldl (· * ·) x = x * xs.prod := by
  intro xs
  induction xs with
  | nil => intro x; simp
  | cons y ys ih =>
    intro x
    simp only [List.foldl_cons, List.prod_cons, ih, Nat.mul_assoc]

/-! ## Cartesian product lemmas -/

theorem cartProd_ne_nil : ∀ gs : List (List String),
    (∀ g ∈ gs, g ≠ []) → cartProd gs ≠ [] := by
  intro gs
  induction gs with
  | nil => intro _ h; simp [cartProd] at h
  | cons g gs ih =>
    intro h
    have hg : g ≠ [] := h g (List.mem_cons_self g gs)
    have hrec : cartProd gs ≠ [] := ih fun x hx => h x (List.mem_cons_of_mem g hx)
    obtain ⟨x, g2, rfl⟩ := List.exists_cons_of_ne_nil hg
    obtain ⟨c, cs, hc⟩ := List.exists_cons_of_ne_nil hrec
    simp [cartProd, hc]

theorem length_cartProd : ∀ gs : List (List String),
    (cartProd gs).length = (gs.map List.length).prod := by
  intro gs
  induction gs with
  | nil => rfl
  | cons g gs ih =>
    simp only [cartProd, List.length_flatten, List.map_map, List.map_cons, List.prod_cons]
    have h1 : List.map (List.length ∘ fun x => List.map (fun combo => x :: combo) (cartProd gs)) g
        = List.replicate g.length (cartProd gs).length := by
      simp [Function.comp_def, List.length_map]
    rw [h1, List.sum_replicate, smul_eq_mul, ih]

theorem mem_cartProd : ∀ (gs : List (List String)) (combo : List String),
    combo ∈ cartProd gs ↔ List.Forall₂ (fun t g => t ∈ g) combo gs := by
  intro gs
  induction gs with
  | nil =>
    intro combo
    simp only [cartProd, List.mem_singleton]
    constructor
    · rintro rfl
      exact List.Forall₂.nil
    · intro h
      cases h
      rfl
  | cons g gs ih =>
    intro combo
    simp only [cartProd, List.mem_flatten, List.mem_map]
    constructor
    · rintro ⟨l, ⟨x, hx, rfl⟩, hl⟩
      obtain ⟨c2, hc2, rfl⟩ := List.mem_map.1 hl
      exact List.Forall₂.cons hx ((ih c2).1 hc2)
    · intro h
      cases h with
      | cons hx hrest =>
        rename_i t ts
        exact ⟨_, ⟨t, hx, rfl⟩, List.mem_map_of_mem _ ((ih ts).2 hrest)⟩

/-! ## Parsed-structure lemmas -/

theorem splitSlash_ne_nil : ∀ l : List Char, splitSlash l ≠ [] := by
  intro l
  induction l with
  | nil => simp [splitSlash]
  | cons c rest ih =>
    by_cases h : c = '/'
    · simp [splitSlash, h]
    · simp only [splitSlash, if_neg h]
      cases hs : splitSlash rest with
      | nil => simp
      | cons p ps => simp

theorem tokenize_ne_nil (cap : List Char) : tokenize cap ≠ [] := by
  unfold tokenize
  rw [Ne, List.dedup_eq_nil]
  simp [splitSlash_ne_nil cap]

theorem parsed_group_ne_nil {s : List Char} {g : List String}
    (h : g ∈ (ManaCost.ofChars s).parsed) : g ≠ [] := by
  obtain ⟨cap, _, rfl⟩ := List.mem_map.1 h
  exact tokenize_ne_nil cap

theorem combinations_ne_nil (s : List Char) :
    ManaCost.combinations (ManaCost.ofChars s) ≠ [] := by
  unfold ManaCost.combinations
  intro h
  rcases List.map_eq_nil_iff.1 h with h2
  exact cartProd_ne_nil _ (fun g hg => parsed_group_ne_nil hg) h2

theorem nodupKeys_of_mem_combinations {m : ManaCost} {a : ComparableCounter}
    (h : a ∈ m.combinations) : NodupKeys a := by
  obtain ⟨combo, _, rfl⟩ := List.mem_map.1 h
  exact nodupKeys_interpret combo

theorem manaCost_eq_exists (x y : ManaCost) :
    ManaCost.eq x y = true ↔
      ∃ a ∈ x.combinations, ∃ b ∈ y.combinations,
        ComparableCounter.eq a b = true := by
  unfold ManaCost.eq
  simp [List.any_eq_true]

theorem manaCost_lt_exists (x y : ManaCost) :
    ManaCost.lt x y = true ↔
      ∃ a ∈ x.combinations, ∃ b ∈ y.combinations,
        ComparableCounter.lt a b = true := by
  unfold ManaCost.lt
  simp [List.any_eq_true]

theorem manaCost_le_exists (x y : ManaCost) :
    ManaCost.le x y = true ↔
      ∃ a ∈ x.combinations, ∃ b ∈ y.combinations,
        ComparableCounter.le a b = true := by
  unfold ManaCost.le
  simp [List.any_eq_true]

/-! ## Extremum lemmas for `group_min` / `group_max` -/

theorem group_min_spec {g : List String} (h : ∃ t ∈ g, t ≠ "P" ∧ t ≠ "X") :
    ∃ n, IsGroupMin g n ∧ group_min g = some n := by
  obtain ⟨t, ht, hpx⟩ := h
  have hmem : t ∈ g.filter fun v => decide (v ≠ "P" ∧ v ≠ "X") := by
    rw [List.mem_filter]
    exact ⟨ht, by simp [hpx.1, hpx.2]⟩
  cases hf : (g.filter fun v => decide (v ≠ "P" ∧ v ≠ "X")).map token_value with
  | nil =>
    exact absurd (hf ▸ List.mem_map_of_mem token_value hmem) (List.not_mem_nil _)
  | cons x xs =>
    have hattain : xs.foldl Nat.min x ∈
        (g.filter fun v => decide (v ≠ "P" ∧ v ≠ "X")).map token_value := by
      rw [hf]
      rcases foldl_min_mem xs x with he | he
      · rw [he]
        exact List.mem_cons_self x xs
      · exact List.mem_cons_of_mem x he
    obtain ⟨t2, ht2, hval⟩ := List.mem_map.1 hattain
    rw [List.mem_filter] at ht2
    have ht2px : t2 ≠ "P" ∧ t2 ≠ "X" := by simpa using ht2.2
    refine ⟨xs.foldl Nat.min x, ⟨⟨t2, ht2.1, ht2px, hval⟩, ?_⟩, ?_⟩
    · intro u hu hup hux
      have humem : u ∈ g.filter fun v => decide (v ≠ "P" ∧ v ≠ "X") := by
        rw [List.mem_filter]
        exact ⟨hu, by simp [hup, hux]⟩
      have huval : token_value u ∈ x :: xs := by
        rw [← hf]
        exact List.mem_map_of_mem token_value humem
      rcases List.mem_cons.1 huval with he | he
      · rw [he]
        exact foldl_min_le_init xs x
      · exact foldl_min_le_mem xs x _ he
    · unfold group_min
      rw [hf]

theorem group_max_spec {g : List String} (h : ∃ t ∈ g, t ≠ "P" ∧ t ≠ "X") :
    ∃ n, IsGroupMax g n ∧ group_max g = some n := by
  obtain ⟨t, ht, hpx⟩ := h
  have hmem : t ∈ g.filter fun v => decide (v ≠ "P" ∧ v ≠ "X") := by
    rw [List.mem_filter]
    exact ⟨ht, by simp [hpx.1, hpx.2]⟩
  cases hf : (g.filter fun v => decide (v ≠ "P" ∧ v ≠ "X")).map token_value with
  | nil =>
    exact absurd (hf ▸ List.mem_map_of_mem token_value hmem) (List.not_mem_nil _)
  | cons x xs =>
    have hattain : xs.foldl Nat.max x ∈
        (g.filter fun v => decide (v ≠ "P" ∧ v ≠ "X")).map token_value := by
      rw [hf]
      rcases foldl_max_mem xs x with he | he
      · rw [he]
        exact List.mem_cons_self x xs
      · exact List.mem_cons_of_mem x he
    obtain ⟨t2, ht2, hval⟩ := List.mem_map.1 hattain
    rw [List.mem_filter] at ht2
    have ht2px : t2 ≠ "P" ∧ t2 ≠ "X" := by simpa using ht2.2
    refine ⟨xs.foldl Nat.max x, ⟨⟨t2, ht2.1, ht2px, hval⟩, ?_⟩, ?_⟩
    · intro u hu hup hux
      have humem : u ∈ g.filter fun v => decide (v ≠ "P" ∧ v ≠ "X") := by
        rw [List.mem_filter]
        exact ⟨hu, by simp [hup, hux]⟩
      have huval : token_value u ∈ x :: xs := by
        rw [← hf]
        exact List.mem_map_of_mem token_value humem
      rcases List.mem_cons.1 huval with he | he
      · rw [he]
        exact foldl_max_init_le xs x
      · exact foldl_max_mem_le xs x _ he
    · unfold group_max
      rw [hf]

theorem mapOption_group_min {gs : List (List String)}
    (h : ∀ g ∈ gs, ∃ t ∈ g, t ≠ "P" ∧ t ≠ "X") :
    ∃ ns, List.Forall₂ IsGroupMin gs ns ∧ mapOption group_min gs = some ns := by
  induction gs with
  | nil => exact ⟨[], List.Forall₂.nil, rfl⟩
  | cons g gs ih =>
    obtain ⟨n, hn, hg⟩ := group_min_spec (h g (List.mem_cons_self g gs))
    obtain ⟨ns, hns, hmap⟩ := ih fun x hx => h x (List.mem_cons_of_mem g hx)
    exact ⟨n :: ns, List.Forall₂.cons hn hns, by simp [mapOption, hg, hmap]⟩

theorem mapOption_group_max {gs : List (List String)}
    (h : ∀ g ∈ gs, ∃ t ∈ g, t ≠ "P" ∧ t ≠ "X") :
    ∃ ns, List.Forall₂ IsGroupMax gs ns ∧ mapOption group_max gs = some ns := by
  induction gs with
  | nil => exact ⟨[], List.Forall₂.nil, rfl⟩
  | cons g gs ih =>
    obtain ⟨n, hn, hg⟩ := group_max_spec (h g (List.mem_cons_self g gs))
    obtain ⟨ns, hns, hmap⟩ := ih fun x hx => h x (List.mem_cons_of_mem g hx)
    exact ⟨n :: ns, List.Forall₂.cons hn hns, by simp [mapOption, hg, hmap]⟩

theorem num_variations_eq_prod {m : ManaCost} (h : m.parsed ≠ []) :
    ManaCost.num_variations m = some ((m.parsed.map List.length).prod) := by
  obtain ⟨g, gs, hp⟩ := List.exists_cons_of_ne_nil h
  unfold ManaCost.num_variations
  rw [hp]
  simp only [List.map_cons, List.prod_cons]
  rw [foldl_mul_eq_prod]

/-! ## Parser–grammar refinement lemmas -/

theorem digit_not_base {c : Char} (hd : c.isDigit = true) : c ∉ baseLetters := by
  intro hmem
  simp only [baseLetters, List.mem_cons, List.not_mem_nil, or_false] at hmem
  rcases hmem with rfl | rfl | rfl | rfl | rfl | rfl | rfl | rfl <;> simp at hd

theorem isAlt_ne_nil {a : List Char} (h : IsAlt a) : a ≠ [] := by
  rcases h with ⟨c, _, rfl⟩ | ⟨hne, _⟩
  · simp
  · exact hne

theorem isAlt_length_pos {a : List Char} (h : IsAlt a) : 0 < a.length :=
  List.length_pos.2 (isAlt_ne_nil h)

theorem takeWhile_eq_nil_of_head {p : Char → Bool} {ys : List Char}
    (hy : ∀ c ∈ ys.head?, p c = false) : ys.takeWhile p = [] := by
  cases ys with
  | nil => rfl
  | cons y ys2 =>
    have := hy y (by simp)
    simp [List.takeWhile_cons, this]

theorem dropWhile_eq_self_of_head {p : Char → Bool} {ys : List Char}
    (hy : ∀ c ∈ ys.head?, p c = false) : ys.dropWhile p = ys := by
  cases ys with
  | nil => rfl
  | cons y ys2 =>
    have := hy y (by simp)
    simp [List.dropWhile_cons, this]

theorem takeWhile_append_all {p : Char → Bool} {xs ys : List Char}
    (h : ∀ c ∈ xs, p c = true) (hy : ∀ c ∈ ys.head?, p c = false) :
    (xs ++ ys).takeWhile p = xs ∧ (xs ++ ys).dropWhile p = ys := by
  induction xs with
  | nil =>
    exact ⟨takeWhile_eq_nil_of_head hy, dropWhile_eq_self_of_head hy⟩
  | cons x xs ih =>
    have hx := h x (List.mem_cons_self x xs)
    obtain ⟨h1, h2⟩ := ih fun c hc => h c (List.mem_cons_of_mem x hc)
    constructor
    · simp [List.takeWhile_cons, hx, h1]
    · simp [List.dropWhile_cons, hx, h2]

theorem matchBase_sound {s b r : List Char} (h : matchBase s = some (b, r)) :
    s = b ++ r ∧ IsAlt b := by
  cases s with
  | nil => simp [matchBase] at h
  | cons c cs =>
    simp only [matchBase] at h
    by_cases hc : c ∈ baseLetters
    · rw [if_pos hc] at h
      injection h with h1
      injection h1 with hb hr
      subst hb
      subst hr
      exact ⟨rfl, Or.inl ⟨c, hc, rfl⟩⟩
    · rw [if_neg hc] at h
      by_cases hd : c.isDigit
      · rw [if_pos hd] at h
        injection h with h1
        injection h1 with hb hr
        subst hb
        subst hr
        refine ⟨?_, Or.inr ⟨by simp, ?_⟩⟩
        · rw [List.cons_append, List.takeWhile_append_dropWhile]
        · intro x hx
          rcases List.mem_cons.1 hx with rfl | hx
          · exact hd
          · exact List.mem_takeWhile_imp hx
      · rw [if_neg hd] at h
        exact absurd h (by simp)

theorem matchBase_complete {a r : List Char} (ha : IsAlt a)
    (hr : ∀ c ∈ r.head?, c.isDigit = false) :
    matchBase (a ++ r) = some (a, r) := by
  rcases ha with ⟨c, hc, rfl⟩ | ⟨hne, hdig⟩
  · simp [matchBase, hc]
  · obtain ⟨d, ds, rfl⟩ := List.exists_cons_of_ne_nil hne
    have hd : d.isDigit = true := hdig d (List.mem_cons_self d ds)
    have hds : ∀ c ∈ ds, c.isDigit = true :=
      fun c hc => hdig c (List.mem_cons_of_mem d hc)
    obtain ⟨h1, h2⟩ := takeWhile_append_all hds hr
    rw [List.cons_append]
    simp only [matchBase]
    rw [if_neg (digit_not_base hd), if_pos hd, h1, h2]

theorem tailJoin_nil : tailJoin [] = [] := rfl

theorem tailJoin_cons (a : List Char) (as : List (List Char)) :
    tailJoin (a :: as) = '/' :: (a ++ tailJoin as) := by
  simp [tailJoin]

theorem stream_head_not_digit (as : List (List Char)) (rest : List Char) :
    ∀ c ∈ (tailJoin as ++ '}' :: rest).head?, c.isDigit = false := by
  cases as with
  | nil =>
    intro c hc
    simp only [tailJoin_nil, List.nil_append, List.head?_cons, Option.mem_def,
      Option.some.injEq] at hc
    subst hc
    decide
  | cons a as2 =>
    intro c hc
    rw [tailJoin_cons, List.cons_append, List.head?_cons] at hc
    simp only [Option.mem_def, Option.some.injEq] at hc
    subst hc
    decide

theorem matchTailF_sound : ∀ (fuel : Nat) (s t r : List Char),
    matchTailF fuel s = (t, r) →
    s = t ++ r ∧ ∃ as, (∀ a ∈ as, IsAlt a) ∧ t = tailJoin as := by
  intro fuel
  induction fuel with
  | zero =>
    intro s t r h
    simp only [matchTailF] at h
    injection h with h1 h2
    subst h1
    subst h2
    exact ⟨rfl, [], by simp, rfl⟩
  | succ fuel ih =>
    intro s t r h
    simp only [matchTailF] at h
    split at h
    · rename_i rest
      split at h
      · rename_i b rest2 hb
        cases hp : matchTailF fuel rest2 with
        | mk t2 r2 =>
          rw [hp] at h
          injection h with h1 h2
          obtain ⟨hs2, as2, has2, ht2⟩ := ih rest2 t2 r2 hp
          obtain ⟨hrest, hbAlt⟩ := matchBase_sound hb
          subst h1
          subst h2
          refine ⟨?_, b :: as2, ?_, ?_⟩
          · rw [hrest, hs2]
            simp [List.append_assoc]
          · intro a ha
            rcases List.mem_cons.1 ha with rfl | ha
            · exact hbAlt
            · exact has2 a ha
          · rw [tailJoin_cons, ht2]
      · injection h with h1 h2
        subst h1
        subst h2
        exact ⟨rfl, [], by simp, rfl⟩
    · injection h with h1 h2
      subst h1
      subst h2
      exact ⟨rfl, [], by simp, rfl⟩

theorem matchTailF_complete : ∀ (as : List (List Char)) (fuel : Nat) (rest : List Char),
    (∀ a ∈ as, IsAlt a) →
    (tailJoin as ++ '}' :: rest).length ≤ fuel →
    matchTailF fuel (tailJoin as ++ '}' :: rest) = (tailJoin as, '}' :: rest) := by
  intro as
  induction as with
  | nil =>
    intro fuel rest _ hlen
    rw [tailJoin_nil, List.nil_append]
    rw [tailJoin_nil, List.nil_append] at hlen
    cases fuel with
    | zero => simp at hlen
    | succ f => rfl
  | cons a as2 ih =>
    intro fuel rest hAlts hlen
    have haAlt : IsAlt a := hAlts a (List.mem_cons_self a as2)
    have hstream : tailJoin (a :: as2) ++ '}' :: rest =
        '/' :: (a ++ (tailJoin as2 ++ '}' :: rest)) := by
      rw [tailJoin_cons]
      simp [List.append_assoc]
    rw [hstream]
    rw [hstream, List.length_cons] at hlen
    cases fuel with
    | zero => omega
    | succ f =>
      have hsub : (tailJoin as2 ++ '}' :: rest).length ≤ f := by
        have := isAlt_length_pos haAlt
        rw [List.length_append] at hlen
        omega
      have hbase : matchBase (a ++ (tailJoin as2 ++ '}' :: rest)) =
          some (a, tailJoin as2 ++ '}' :: rest) :=
        matchBase_complete haAlt (stream_head_not_digit as2 rest)
      have hrec := ih f rest (fun x hx => hAlts x (List.mem_cons_of_mem a hx)) hsub
      simp only [matchTailF, hbase, hrec]
      rw [tailJoin_cons]

theorem matchGroupAt_sound {s cap rest : List Char}
    (h : matchGroupAt s = some (cap, rest)) :
    s = '{' :: (cap ++ '}' :: rest) ∧ IsCapture cap ∧ cap ≠ [] := by
  cases s with
  | nil => simp [matchGroupAt] at h
  | cons c cs =>
    by_cases hc : c = '{'
    · subst hc
      simp only [matchGroupAt] at h
      split at h
      · rename_i b rest2 hb
        cases hp : matchTailF rest2.length rest2 with
        | mk t rest3 =>
          rw [hp] at h
          obtain ⟨hrest2, as, hasAlt, ht⟩ := matchTailF_sound rest2.length rest2 t rest3 hp
          obtain ⟨hcs, hbAlt⟩ := matchBase_sound hb
          split at h
          · rename_i rest4 hrest3
            injection h with h1
            injection h1 with hcap hrest
            subst hcap
            subst hrest
            refine ⟨?_, ⟨b :: as, by simp, ?_, ?_⟩, ?_⟩
            · have hr3 : rest3 = '}' :: rest4 := hrest3
              rw [hcs, hrest2, hr3]
              simp [List.append_assoc]
            · intro a ha
              rcases List.mem_cons.1 ha with rfl | ha
              · exact hbAlt
              · exact hasAlt a ha
            · show b ++ t = joinSlash (b :: as)
              rw [ht]
              rfl
            · intro hnil
              exact isAlt_ne_nil hbAlt (List.append_eq_nil.1 hnil).1
          · exact absurd h (by simp)
      · exact absurd h (by simp)
    · have hnone : matchGroupAt (c :: cs) = none := by
        simp only [matchGroupAt]
        split
        · rename_i rest heq
          injection heq with hch
          exact absurd hch hc
        · rfl
      rw [hnone] at h
      exact absurd h (by simp)

theorem matchGroupAt_complete {s : List Char} (h : HasGroupAt s) :
    ∃ p, matchGroupAt s = some p := by
  obtain ⟨cap, rest, ⟨alts, haltsne, haltsAlt, hcap⟩, hs⟩ := h
  obtain ⟨a, as, rfl⟩ := List.exists_cons_of_ne_nil haltsne
  subst hcap
  subst hs
  have heq : joinSlash (a :: as) ++ '}' :: rest = a ++ (tailJoin as ++ '}' :: rest) := by
    show (a ++ tailJoin as) ++ '}' :: rest = _
    simp [List.append_assoc]
  have hbase : matchBase (a ++ (tailJoin as ++ '}' :: rest)) =
      some (a, tailJoin as ++ '}' :: rest) :=
    matchBase_complete (haltsAlt a (List.mem_cons_self a as))
      (stream_head_not_digit as rest)
  have htail : matchTailF (tailJoin as ++ '}' :: rest).length
      (tailJoin as ++ '}' :: rest) = (tailJoin as, '}' :: rest) :=
    matchTailF_complete as _ rest
      (fun x hx => haltsAlt x (List.mem_cons_of_mem a hx)) (Nat.le_refl _)
  refine ⟨(a ++ tailJoin as, rest), ?_⟩
  simp only [matchGroupAt, heq, hbase, htail]

theorem findAllF_groupsSpec : ∀ (fuel : Nat) (s : List Char), s.length ≤ fuel →
    GroupsSpec s (findAllF fuel s) := by
  intro fuel
  induction fuel with
  | zero =>
    intro s hlen
    have hnil : s = [] := List.eq_nil_of_length_eq_zero (Nat.le_zero.1 hlen)
    subst hnil
    exact GroupsSpec.nil
  | succ f ih =>
    intro s hlen
    cases s with
    | nil => exact GroupsSpec.nil
    | cons c rest =>
      cases hm : matchGroupAt (c :: rest) with
      | some p =>
        obtain ⟨cap, rest2⟩ := p
        obtain ⟨hs, hcap, hcapne⟩ := matchGroupAt_sound hm
        have hred : findAllF (f + 1) (c :: rest) = cap :: findAllF f rest2 := by
          simp only [findAllF, hm]
        rw [hred, hs]
        refine GroupsSpec.group cap rest2 _ hcap (ih rest2 ?_)
        have h1 : (c :: rest).length ≤ f + 1 := hlen
        rw [hs] at h1
        simp only [List.length_cons, List.length_append] at h1
        have h2 : 0 < cap.length := List.length_pos.2 hcapne
        omega
      | none =>
        have hred : findAllF (f + 1) (c :: rest) = findAllF f rest := by
          simp only [findAllF, hm]
        rw [hred]
        refine GroupsSpec.skip c rest _ ?_ (ih rest ?_)
        · intro hg
          obtain ⟨p, hp⟩ := matchGroupAt_complete hg
          rw [hm] at hp
          exact absurd hp (by simp)
        · simp only [List.length_cons] at hlen
          omega

theorem groupsSpec_findAll (s : List Char) : GroupsSpec s (findAll s) :=
  findAllF_groupsSpec s.length s (Nat.le_refl _)

theorem mem_tailJoin {c : Char} {as : List (List Char)} (h : c ∈ tailJoin as) :
    c = '/' ∨ ∃ a ∈ as, c ∈ a := by
  induction as with
  | nil => simp [tailJoin_nil] at h
  | cons a as2 ih =>
    rw [tailJoin_cons] at h
    rcases List.mem_cons.1 h with rfl | h
    · exact Or.inl rfl
    · rcases List.mem_append.1 h with h | h
      · exact Or.inr ⟨a, List.mem_cons_self a as2, h⟩
      · rcases ih h with h | ⟨x, hx, hcx⟩
        · exact Or.inl h
        · exact Or.inr ⟨x, List.mem_cons_of_mem a hx, hcx⟩

theorem isAlt_no_rbrace {a : List Char} (h : IsAlt a) : '}' ∉ a := by
  intro hmem
  rcases h with ⟨c, hc, rfl⟩ | ⟨_, hdig⟩
  · rw [List.mem_singleton] at hmem
    subst hmem
    exact absurd hc (by decide)
  · have := hdig _ hmem
    simp at this

theorem isCapture_no_rbrace {cap : List Char} (h : IsCapture cap) : '}' ∉ cap := by
  obtain ⟨alts, haltsne, haltsAlt, rfl⟩ := h
  intro hmem
  obtain ⟨a, as, rfl⟩ := List.exists_cons_of_ne_nil haltsne
  rcases List.mem_append.1 hmem with h | h
  · exact isAlt_no_rbrace (haltsAlt a (List.mem_cons_self a as)) h
  · rcases mem_tailJoin h with h | ⟨x, hx, hcx⟩
    · simp at h
    · exact isAlt_no_rbrace (haltsAlt x (List.mem_cons_of_mem a hx)) hcx

theorem rbrace_split_inj : ∀ (a b x y : List Char), '}' ∉ a → '}' ∉ b →
    a ++ '}' :: x = b ++ '}' :: y → a = b ∧ x = y := by
  intro a
  induction a with
  | nil =>
    intro b x y _ hb h
    cases b with
    | nil =>
      simp only [List.nil_append] at h
      injection h with _ h2
      exact ⟨rfl, h2⟩
    | cons c b2 =>
      simp only [List.nil_append, List.cons_append] at h
      injection h with h1 _
      exact absurd (h1 ▸ List.mem_cons_self c b2) hb
  | cons c a2 ih =>
    intro b x y ha hb h
    cases b with
    | nil =>
      simp only [List.nil_append, List.cons_append] at h
      injection h with h1 _
      exact absurd (h1.symm ▸ List.mem_cons_self c a2) ha
    | cons c2 b2 =>
      simp only [List.cons_append] at h
      injection h with h1 h2
      obtain ⟨hab, hxy⟩ := ih b2 x y
        (fun hc => ha (List.mem_cons_of_mem c hc))
        (fun hc => hb (List.mem_cons_of_mem c2 hc)) h2
      subst h1
      rw [hab]
      exact ⟨rfl, hxy⟩

theorem groupsSpec_unique {s : List Char} {caps1 : List (List Char)}
    (h1 : GroupsSpec s caps1) :
    ∀ {caps2 : List (List Char)}, GroupsSpec s caps2 → caps1 = caps2 := by
  induction h1 with
  | nil =>
    intro caps2 h2
    cases h2
    rfl
  | group cap rest caps hcap hrec ih =>
    intro caps2 h2
    have hg : HasGroupAt ('{' :: (cap ++ '}' :: rest)) := ⟨cap, rest, hcap, rfl⟩
    generalize hs : '{' :: (cap ++ '}' :: rest) = s2 at h2
    cases h2 with
    | nil => exact absurd hs (by simp)
    | group cap2 rest2 caps2' hcap2 hrec2 =>
      injection hs with hs1 hs2
      obtain ⟨hc, hr⟩ := rbrace_split_inj cap cap2 rest rest2
        (isCapture_no_rbrace hcap) (isCapture_no_rbrace hcap2) hs2
      subst hc
      subst hr
      rw [ih hrec2]
    | skip c rest2 caps2' hno hrec2 =>
      injection hs with hs1 hs2
      subst hs1
      subst hs2
      exact absurd hg hno
  | skip c rest caps hno hrec ih =>
    intro caps2 h2
    cases h2 with
    | group cap2 rest2 caps2' hcap2 hrec2 =>
      exact absurd ⟨cap2, rest2, hcap2, rfl⟩ hno
    | skip c2 rest2 caps2' hno2 hrec2 =>
      exact ih hrec2

/-! ## Claim theorems -/

/-- C1: the cost-level relations are existential over interpretation pairs:
`X == Y` iff some interpretation of X equals (pointwise, missing keys
counting as zero) some interpretation of Y; `X < Y` iff some pair of
interpretations is related by the concrete `<`; `X <= Y` likewise for the
concrete `<=`. -/
theorem claim_C1_cost_relations_existential (X Y : ManaCost) :
    (ManaCost.eq X Y = true ↔ ∃ a ∈ X.combinations, ∃ b ∈ Y.combinations,
      ∀ k, ComparableCounter.get a k = ComparableCounter.get b k) ∧
    (ManaCost.lt X Y = true ↔ ∃ a ∈ X.combinations, ∃ b ∈ Y.combinations,
      ComparableCounter.lt a b = true) ∧
    (ManaCost.le X Y = true ↔ ∃ a ∈ X.combinations, ∃ b ∈ Y.combinations,
      ComparableCounter.le a b = true) := by
  refine ⟨?_, manaCost_lt_exists X Y, manaCost_le_exists X Y⟩
  rw [manaCost_eq_exists]
  constructor
  · rintro ⟨a, ha, b, hb, h⟩
    exact ⟨a, ha, b, hb,
      (counter_eq_iff (nodupKeys_of_mem_combinations ha)
        (nodupKeys_of_mem_combinations hb)).1 h⟩
  · rintro ⟨a, ha, b, hb, h⟩
    exact ⟨a, ha, b, hb,
      (counter_eq_iff (nodupKeys_of_mem_combinations ha)
        (nodupKeys_of_mem_combinations hb)).2 h⟩

/-- C2: on concrete interpretations (key-to-count mappings with unique keys,
missing keys counting as zero), `A < B` holds iff every key present in A has
`A[key] < B[key]`, and `A <= B` iff every key present in A has
`A[key] <= B[key]`; keys present only in B impose no constraint, since the
right-hand sides quantify only over A's keys. -/
theorem claim_C2_concrete_ordering (A B : ComparableCounter) (hA : NodupKeys A) :
    (ComparableCounter.lt A B = true ↔
      ∀ k ∈ A.map Prod.fst,
        ComparableCounter.get A k < ComparableCounter.get B k) ∧
    (ComparableCounter.le A B = true ↔
      ∀ k ∈ A.map Prod.fst,
        ComparableCounter.get A k ≤ ComparableCounter.get B k) :=
  ⟨counter_lt_iff hA, counter_le_iff hA⟩

/-- Witness for C2 at A = {R: 1}, B = {R: 2}. -/
theorem claim_C2_concrete_ordering_witness :
    NodupKeys [("R", 1)] ∧
    ((ComparableCounter.lt [("R", 1)] [("R", 2)] = true ↔
      ∀ k ∈ ([("R", 1)] : ComparableCounter).map Prod.fst,
        ComparableCounter.get [("R", 1)] k < ComparableCounter.get [("R", 2)] k) ∧
    (ComparableCounter.le [("R", 1)] [("R", 2)] = true ↔
      ∀ k ∈ ([("R", 1)] : ComparableCounter).map Prod.fst,
        ComparableCounter.get [("R", 1)] k ≤ ComparableCounter.get [("R", 2)] k)) :=
  ⟨by decide, claim_C2_concrete_ordering [("R", 1)] [("R", 2)] (by decide)⟩

/-- C3 fails on the code: `@total_ordering` derives `__ge__` as
`not (self < other)` (and `__gt__` as `not (self < other) and self != other`),
not by swapping operands.  At X = {G}, Y = {R}: `X >= Y` is True while
`Y <= X` is False; and at X = Y = the empty cost, `X > Y` is False while
`Y < X` is True. -/
theorem claim_C3_counterexample :
    ManaCost.ge (ManaCost.ofString "{G}") (ManaCost.ofString "{R}") = true ∧
    ManaCost.le (ManaCost.ofString "{R}") (ManaCost.ofString "{G}") = false ∧
    ManaCost.gt (ManaCost.ofString "") (ManaCost.ofString "") = false ∧
    ManaCost.lt (ManaCost.ofString "") (ManaCost.ofString "") = true := by
  refine ⟨by decide, by decide, by decide, by decide⟩

/-- C3 amended: the derived relations satisfy the `total_ordering` recipes
from `__lt__` and `__eq__`: `X > Y` holds iff `X < Y` fails and `X == Y`
fails, and `X >= Y` holds iff `X < Y` fails — that is, iff no pair of
interpretations of X and Y is related by the concrete `<`. -/
theorem claim_C3_amended_derived_relations (x y : ManaCost) :
    (ManaCost.gt x y = true ↔
      ¬ ManaCost.lt x y = true ∧ ¬ ManaCost.eq x y = true) ∧
    (ManaCost.ge x y = true ↔
      ∀ a ∈ x.combinations, ∀ b ∈ y.combinations,
        ¬ ComparableCounter.lt a b = true) := by
  constructor
  · unfold ManaCost.gt
    simp
  · unfold ManaCost.ge ManaCost.lt
    simp [List.any_eq_true]

/-- C4: the code raises on `ManaCost("").num_variations` (`reduce` of an
empty sequence with no initializer is a `TypeError`, modelled by `none`),
while min and max totals are 0 as the claim states. -/
theorem claim_C4_empty_cost :
    ManaCost.num_variations (ManaCost.ofString "") = none ∧
    ManaCost.min_mana_cost (ManaCost.ofString "") = some 0 ∧
    ManaCost.max_mana_cost (ManaCost.ofString "") = some 0 := by
  refine ⟨by decide, by decide, by decide⟩

/-- C5: the code raises on a group whose alternatives are all P or X:
`min()` / `max()` of an empty sequence is a `ValueError`, modelled by
`none`, instead of the group contributing 0. -/
theorem claim_C5_px_only_group :
    ManaCost.min_mana_cost (ManaCost.ofString "{X}") = none ∧
    ManaCost.max_mana_cost (ManaCost.ofString "{X}") = none ∧
    ManaCost.min_mana_cost (ManaCost.ofString "{P/X}") = none ∧
    ManaCost.max_mana_cost (ManaCost.ofString "{P/X}") = none ∧
    ManaCost.min_mana_cost (ManaCost.ofString "{R}{X}") = none := by
  refine ⟨by decide, by decide, by decide, by decide, by decide⟩

/-- C9: cost-level equality is reflexive: every parsed cost (the empty cost
included) has a nonempty interpretation list, and every interpretation is
`Counter`-equal to itself. -/
theorem claim_C9_eq_refl (s : List Char) :
    ManaCost.eq (ManaCost.ofChars s) (ManaCost.ofChars s) = true := by
  obtain ⟨a, as, ha⟩ := List.exists_cons_of_ne_nil (combinations_ne_nil s)
  rw [manaCost_eq_exists]
  have hmem : a ∈ ManaCost.combinations (ManaCost.ofChars s) := by
    rw [ha]
    exact List.mem_cons_self a as
  exact ⟨a, hmem, a, hmem,
    (counter_eq_iff (nodupKeys_of_mem_combinations hmem)
      (nodupKeys_of_mem_combinations hmem)).2 fun k => rfl⟩

/-- C10: the strict cost relation is not irreflexive at the empty cost: the
empty cost has exactly one interpretation, the empty counter, whose concrete
`<` check is vacuously true against anything, so `ManaCost("") < C` holds
for every parsed cost C — including the empty cost itself. -/
theorem claim_C10_empty_lt_everything (s : List Char) :
    ManaCost.combinations (ManaCost.ofString "") = [[]] ∧
    (∀ b : ComparableCounter, ComparableCounter.lt [] b = true) ∧
    ManaCost.lt (ManaCost.ofString "") (ManaCost.ofChars s) = true ∧
    ManaCost.lt (ManaCost.ofString "") (ManaCost.ofString "") = true := by
  refine ⟨rfl, fun b => rfl, ?_, by decide⟩
  rw [manaCost_lt_exists]
  obtain ⟨b, bs, hb⟩ := List.exists_cons_of_ne_nil (combinations_ne_nil s)
  refine ⟨[], ?_, b, ?_, rfl⟩
  · exact List.mem_singleton.2 rfl
  · rw [hb]
    exact List.mem_cons_self b bs

/-- C6: when every group has at least one non-P/X alternative, `min_total`
is the sum over groups of the minimum numeric contribution among the
group's non-P/X tokens and `max_total` the sum of the per-group maxima
(digit runs contribute their value, letter tokens contribute 1); in
particular `{5/R}{W}` has min 2 and max 6, and
`{W/R/G/B/U/10}{W/R/G/B/U/10}` has min 2 and max 20. -/
theorem claim_C6_min_max_totals (m : ManaCost)
    (h : ∀ g ∈ m.parsed, ∃ t ∈ g, t ≠ "P" ∧ t ≠ "X") :
    (∃ ns, List.Forall₂ IsGroupMin m.parsed ns ∧
      ManaCost.min_mana_cost m = some ns.sum) ∧
    (∃ ns, List.Forall₂ IsGroupMax m.parsed ns ∧
      ManaCost.max_mana_cost m = some ns.sum) ∧
    ManaCost.min_mana_cost (ManaCost.ofString "{5/R}{W}") = some 2 ∧
    ManaCost.max_mana_cost (ManaCost.ofString "{5/R}{W}") = some 6 ∧
    ManaCost.min_mana_cost (ManaCost.ofString "{W/R/G/B/U/10}{W/R/G/B/U/10}") = some 2 ∧
    ManaCost.max_mana_cost (ManaCost.ofString "{W/R/G/B/U/10}{W/R/G/B/U/10}") = some 20 := by
  refine ⟨?_, ?_, by decide, by decide, by decide, by decide⟩
  · obtain ⟨ns, hns, hmap⟩ := mapOption_group_min h
    exact ⟨ns, hns, by unfold ManaCost.min_mana_cost; rw [hmap]; rfl⟩
  · obtain ⟨ns, hns, hmap⟩ := mapOption_group_max h
    exact ⟨ns, hns, by unfold ManaCost.max_mana_cost; rw [hmap]; rfl⟩

/-- Witness for C6 at the cost `{5/R}{W}`. -/
theorem claim_C6_min_max_totals_witness :
    (∀ g ∈ (ManaCost.ofString "{5/R}{W}").parsed, ∃ t ∈ g, t ≠ "P" ∧ t ≠ "X") ∧
    ((∃ ns, List.Forall₂ IsGroupMin (ManaCost.ofString "{5/R}{W}").parsed ns ∧
      ManaCost.min_mana_cost (ManaCost.ofString "{5/R}{W}") = some ns.sum) ∧
    (∃ ns, List.Forall₂ IsGroupMax (ManaCost.ofString "{5/R}{W}").parsed ns ∧
      ManaCost.max_mana_cost (ManaCost.ofString "{5/R}{W}") = some ns.sum) ∧
    ManaCost.min_mana_cost (ManaCost.ofString "{5/R}{W}") = some 2 ∧
    ManaCost.max_mana_cost (ManaCost.ofString "{5/R}{W}") = some 6 ∧
    ManaCost.min_mana_cost (ManaCost.ofString "{W/R/G/B/U/10}{W/R/G/B/U/10}") = some 2 ∧
    ManaCost.max_mana_cost (ManaCost.ofString "{W/R/G/B/U/10}{W/R/G/B/U/10}") = some 20) :=
  ⟨by decide, claim_C6_min_max_totals (ManaCost.ofString "{5/R}{W}") (by decide)⟩

/-- C7: for a parsed cost with at least one group, the interpretation list
is exactly the Cartesian product of the groups — membership is choosing one
token per group and folding contributions (numeric tokens add their value
to GENERIC, others add one to their own key) — and its length equals
`num_variations`, the product of the groups' distinct-alternative counts
(the parsed groups are duplicate-free). -/
theorem claim_C7_combinations_cartesian (s : List Char)
    (h : (ManaCost.ofChars s).parsed ≠ []) :
    (∀ g ∈ (ManaCost.ofChars s).parsed, g.Nodup) ∧
    (ManaCost.combinations (ManaCost.ofChars s)).length =
      ((ManaCost.ofChars s).parsed.map List.length).prod ∧
    ManaCost.num_variations (ManaCost.ofChars s) =
      some (((ManaCost.ofChars s).parsed.map List.length).prod) ∧
    (∀ c, c ∈ ManaCost.combinations (ManaCost.ofChars s) ↔
      ∃ combo, List.Forall₂ (fun t g => t ∈ g) combo (ManaCost.ofChars s).parsed ∧
        c = interpret combo) ∧
    (∀ combo key, ComparableCounter.get (interpret combo) key =
      (combo.map fun t => specContribution key t).sum) := by
  refine ⟨?_, ?_, num_variations_eq_prod h, ?_,
    fun combo key => interpret_get combo key⟩
  · intro g hg
    obtain ⟨cap, _, rfl⟩ := List.mem_map.1 hg
    exact List.nodup_dedup _
  · unfold ManaCost.combinations
    rw [List.length_map, length_cartProd]
  · intro c
    unfold ManaCost.combinations
    rw [List.mem_map]
    constructor
    · rintro ⟨combo, hc, rfl⟩
      exact ⟨combo, (mem_cartProd _ _).1 hc, rfl⟩
    · rintro ⟨combo, hc, rfl⟩
      exact ⟨combo, (mem_cartProd _ _).2 hc, rfl⟩

/-- Witness for C7 at the cost `{R/W}{R/W}` (4 = 2 × 2 variations). -/
theorem claim_C7_combinations_cartesian_witness :
    (ManaCost.ofChars "{R/W}{R/W}".data).parsed ≠ [] ∧
    ((∀ g ∈ (ManaCost.ofChars "{R/W}{R/W}".data).parsed, g.Nodup) ∧
    (ManaCost.combinations (ManaCost.ofChars "{R/W}{R/W}".data)).length =
      ((ManaCost.ofChars "{R/W}{R/W}".data).parsed.map List.length).prod ∧
    ManaCost.num_variations (ManaCost.ofChars "{R/W}{R/W}".data) =
      some (((ManaCost.ofChars "{R/W}{R/W}".data).parsed.map List.length).prod) ∧
    (∀ c, c ∈ ManaCost.combinations (ManaCost.ofChars "{R/W}{R/W}".data) ↔
      ∃ combo, List.Forall₂ (fun t g => t ∈ g) combo
          (ManaCost.ofChars "{R/W}{R/W}".data).parsed ∧
        c = interpret combo) ∧
    (∀ combo key, ComparableCounter.get (interpret combo) key =
      (combo.map fun t => specContribution key t).sum)) :=
  ⟨by decide, claim_C7_combinations_cartesian "{R/W}{R/W}".data (by decide)⟩

/-- C8: constructing a cost never raises (the embedding is a total
function), and the parse is exactly the ordered sequence of bracketed
substrings matching the grammar `{ alt (/ alt)* }` (alt a letter in
W U B R G C P X or a digit run): the scanner's output satisfies the
grammar-level decomposition `GroupsSpec`, that decomposition is unique (so
any spec-level decomposition coincides with the code's), each captured
group is split on `/` with duplicates collapsed (`{R/R/R}` parses like
`{R}`), and a string with no matching group yields the empty group
sequence (the case `GroupsSpec s []`). -/
theorem claim_C8_parser_grammar (s : List Char) (caps : List (List Char))
    (h : GroupsSpec s caps) :
    GroupsSpec s (findAll s) ∧ caps = findAll s ∧
    (ManaCost.ofChars s).parsed = (findAll s).map tokenize ∧
    (ManaCost.ofString "{R/R/R}").parsed = (ManaCost.ofString "{R}").parsed :=
  ⟨groupsSpec_findAll s, groupsSpec_unique h (groupsSpec_findAll s), rfl, by decide⟩

/-- Witness for C8 at `"x{R}{1a}{W/U}"` (junk text, a malformed group, and
two matching groups). -/
theorem claim_C8_parser_grammar_witness :
    GroupsSpec "x{R}{1a}{W/U}".data (findAll "x{R}{1a}{W/U}".data) ∧
    (GroupsSpec "x{R}{1a}{W/U}".data (findAll "x{R}{1a}{W/U}".data) ∧
    findAll "x{R}{1a}{W/U}".data = findAll "x{R}{1a}{W/U}".data ∧
    (ManaCost.ofChars "x{R}{1a}{W/U}".data).parsed =
      (findAll "x{R}{1a}{W/U}".data).map tokenize ∧
    (ManaCost.ofString "{R/R/R}").parsed = (ManaCost.ofString "{R}").parsed) :=
  ⟨groupsSpec_findAll _,
    claim_C8_parser_grammar "x{R}{1a}{W/U}".data (findAll "x{R}{1a}{W/U}".data)
      (groupsSpec_findAll _)⟩

/-- Behaviors asserted by the repository's test suite
(tests/test_mana_cost.py), evaluated on the embedding. -/
theorem test_suite_behaviors :
    ManaCost.eq (ManaCost.ofString "{R}") (ManaCost.ofString "{R}") = true ∧
    ManaCost.eq (ManaCost.ofString "{R}") (ManaCost.ofString "{U}") = false ∧
    ManaCost.eq (ManaCost.ofString "{R/W}") (ManaCost.ofString "{R}") = true ∧
    ManaCost.eq (ManaCost.ofString "{R/W}") (ManaCost.ofString "{R/W}") = true ∧
    ManaCost.eq (ManaCost.ofString "{R}{R}") (ManaCost.ofString "{R}{W/R}") = true ∧
    ManaCost.lt (ManaCost.ofString "") (ManaCost.ofString "{R}") = true ∧
    ManaCost.gt (ManaCost.ofString "{R}") (ManaCost.ofString "") = true ∧
    ManaCost.lt (ManaCost.ofString "{R}{R}") (ManaCost.ofString "{R}{R}{R}") = true ∧
    ManaCost.gt (ManaCost.ofString "{R}{R}{R}") (ManaCost.ofString "{R}{R}") = true ∧
    ManaCost.lt (ManaCost.ofString "{5}{R}") (ManaCost.ofString "{6}{R}{R}") = true ∧
    ManaCost.le (ManaCost.ofString "{5000}") (ManaCost.ofString "{1000000}") = true ∧
    ManaCost.ge (ManaCost.ofString "{1000000}") (ManaCost.ofString "{5000}") = true ∧
    ManaCost.le (ManaCost.ofString "{5}{R}") (ManaCost.ofString "{5}{R}{R}") = true ∧
    ManaCost.min_mana_cost (ManaCost.ofString "{5}{R}") = some 6 ∧
    ManaCost.max_mana_cost (ManaCost.ofString "{5}{R}") = some 6 ∧
    ManaCost.min_mana_cost (ManaCost.ofString "{5/R}{W}") = some 2 ∧
    ManaCost.max_mana_cost (ManaCost.ofString "{5/R}{W}") = some 6 ∧
    ManaCost.num_variations (ManaCost.ofString "{R}") = some 1 ∧
    ManaCost.num_variations (ManaCost.ofString "{R/R/R}") = some 1 ∧
    ManaCost.num_variations (ManaCost.ofString "{1/2/3/4}") = some 4 ∧
    ManaCost.num_variations (ManaCost.ofString "{1}{1}") = some 1 ∧
    ManaCost.num_variations (ManaCost.ofString "{R/W}{R/W}") = some 4 ∧
    ComparableCounter.lt [("R", 2)] [("R", 1)] = false ∧
    ComparableCounter.lt [("R", 2)] [("G", 1)] = false ∧
    ComparableCounter.lt [("R", 1)] [("R", 2)] = true ∧
    ComparableCounter.lt [("G", 1)] [("R", 2)] = false ∧
    ManaCost.lt (ManaCost.ofString "{R}{R}") (ManaCost.ofString "{R/G}") = false ∧
    ManaCost.lt (ManaCost.ofString "{R/G}") (ManaCost.ofString "{R}{R}") = true ∧
    ManaCost.gt (ManaCost.ofString "{R}{R}") (ManaCost.ofString "{R/G}") = true ∧
    ManaCost.gt (ManaCost.ofString "{R/G}") (ManaCost.ofString "{R}{R}") = false := by
  decide

